import Mathlib

/-!
Shallow embedding of the ReadRSS core (crate `rss-core`) and verification of
its specification claims.

Sources embedded:
- `src/rss-core/src/feed.rs` — `FeedDescriptor`, `FeedEntry`, `identity`,
  shared feed-list operations `add_feed` / `remove_feed` / `list_feeds`;
- `src/rss-core/src/storage.rs` — `SeenData`, `SeenStore::is_new_and_mark`,
  `SeenStore::persist`, `SeenStore::load_from`;
- `src/rss-core/src/data.rs` — `DataApi` persistence (`persist_feeds`,
  `persist_read`, `persist_articles`), `read_json_with_tmp_fallback`,
  `remove_feed`, `upsert_articles`;
- `src/rss-core/src/poller.rs` — scheme policy and body-size cap of
  `fetch_feed`, `fetch_feed_with_retries`, `poll_once`;
- `src/rss-core/src/error.rs` — `PollError`.

Modelling conventions: `DateTime<Utc>` is represented by its unix timestamp
(an `Int`, the only observation the code makes of it is `.timestamp()` and
ordering, and chronological order coincides with timestamp order);
`HashMap`/`HashSet` are represented by association lists / lists with the
operations the code performs; the network is a parameter (a function from
feed to fetch outcome, and explicit content-length/chunk inputs); file-system
effects are traces of write/rename operations; sleeps are recorded as a list
of backoff durations.
-/

namespace ReadRSS

/-- `PollError` from `src/rss-core/src/error.rs`. Payloads of the variants
that wrap external library errors are dropped; `TooLarge` keeps its byte
count (`u64`, modelled as `Nat`, within range in every reachable use since
it is a sum of buffer lengths). -/
inductive PollError where
  | Network
  | Parse
  | Task
  | UpdateChannelClosed
  | UnsupportedScheme
  | InvalidUrl
  | TooLarge (bytes : Nat)
deriving Repr, DecidableEq

/-- `FeedDescriptor` from `src/rss-core/src/feed.rs`. -/
structure FeedDescriptor where
  id : String
  title : String
  url : String
deriving Repr, DecidableEq

/-- `FeedEntry` from `src/rss-core/src/feed.rs`; `published_at` is the
unix timestamp of the `DateTime<Utc>`. -/
structure FeedEntry where
  feed_id : String
  title : String
  summary : Option String
  url : String
  published_at : Option Int
  guid : Option String
  author : Option String
  category : Option String
  content_html : Option String
  image_url : Option String
deriving Repr, DecidableEq

/-- `FeedEntry::identity` (feed.rs lines 89–98): GUID, else non-empty URL,
else title + timestamp (0 when `published_at` is `None`, as
`unwrap_or_default`). -/
def identity (e : FeedEntry) : String :=
  match e.guid with
  | some g => "guid:" ++ g
  | none =>
    if !e.url.isEmpty then
      "url:" ++ e.url
    else
      let ts : Int := (e.published_at.map (fun d => d)).getD 0
      "title:" ++ e.title ++ "@" ++ toString ts

/-- `add_feed` (feed.rs lines 162–166): `retain(id != feed.id)` then `push`. -/
def add_feed (feeds : List FeedDescriptor) (feed : FeedDescriptor) : List FeedDescriptor :=
  (feeds.filter fun existing => existing.id ≠ feed.id) ++ [feed]

/-- `remove_feed` (feed.rs lines 175–178): `retain(id != feed_id)`. -/
def remove_feed (feeds : List FeedDescriptor) (feed_id : String) : List FeedDescriptor :=
  feeds.filter fun existing => existing.id ≠ feed_id

/-- `list_feeds` (feed.rs lines 187–189): clones the shared list. -/
def list_feeds (feeds : List FeedDescriptor) : List FeedDescriptor :=
  feeds

/-! ### Seen store (`src/rss-core/src/storage.rs`) and `poll_once`
(`src/rss-core/src/poller.rs`). `SeenData.seen` is a
`HashMap<String, HashSet<String>>`; it is modelled as an association list of
feed id to list of identities, with exactly the operations the code
performs. -/

/-- `HashMap` lookup on the association-list model. -/
def lookupKey {A : Type} : List (String × A) → String → Option A
  | [], _ => none
  | (k, v) :: rest, key => if k = key then some v else lookupKey rest key

/-- The `seen` map of `SeenData` (storage.rs lines 11–14). -/
abbrev SeenMap := List (String × List String)

/-- The seen set of one feed; absent feeds read as the empty set, matching
`entry(feed_id).or_default()`. -/
def seenOf (m : SeenMap) (feed_id : String) : List String :=
  (lookupKey m feed_id).getD []

/-- Record one identity into a feed's seen set (the `set.insert(key)` on the
set obtained from `entry(feed_id).or_default()`). -/
def insertSeen : SeenMap → String → String → SeenMap
  | [], key, idv => [(key, [idv])]
  | (k, v) :: rest, key, idv =>
    if k = key then (k, idv :: v) :: rest else (k, v) :: insertSeen rest key idv

/-- `SeenStore::is_new_and_mark` (storage.rs lines 63–78), acting on the
in-memory `SeenData`: returns whether the entry was new together with the
updated map. -/
def is_new_and_mark (m : SeenMap) (e : FeedEntry) : Bool × SeenMap :=
  let key := identity e
  if key ∈ seenOf m e.feed_id then (false, m)
  else (true, insertSeen m e.feed_id key)

/-- `Event::NewArticles` (poller.rs lines 203–206). -/
structure Event where
  feed_id : String
  entries : List FeedEntry
deriving Repr, DecidableEq

/-- The seen-filter loop of `poll_once` (poller.rs lines 259–264): keep the
entries for which `is_new_and_mark` returns true, threading the store. -/
def filterNew : SeenMap → List FeedEntry → List FeedEntry × SeenMap
  | m, [] => ([], m)
  | m, e :: rest =>
    let r1 := is_new_and_mark m e
    let r2 := filterNew r1.2 rest
    (if r1.1 then e :: r2.1 else r2.1, r2.2)

/-- `poll_once` (poller.rs lines 249–276). The network is abstracted by
`fetch`, the outcome of `fetch_feed_with_retries` per feed (deterministic
across the run, i.e. an unchanged feed). Errors are logged and skipped. -/
def poll_once (fetch : FeedDescriptor → Except PollError (List FeedEntry)) :
    List FeedDescriptor → SeenMap → List Event × SeenMap
  | [], m => ([], m)
  | feed :: rest, m =>
    match fetch feed with
    | .ok entries =>
      if entries.isEmpty then poll_once fetch rest m
      else
        let r := filterNew m entries
        let r2 := poll_once fetch rest r.2
        (if r.1.isEmpty then r2.1 else ⟨feed.id, r.1⟩ :: r2.1, r2.2)
    | .error _ => poll_once fetch rest m

theorem lookupKey_insertSeen (m : SeenMap) (k idv k2 : String) :
    lookupKey (insertSeen m k idv) k2 =
      if k = k2 then some (idv :: seenOf m k) else lookupKey m k2 := by
  induction m with
  | nil => by_cases h : k = k2 <;> simp [insertSeen, lookupKey, seenOf, h]
  | cons hd tl ih =>
    obtain ⟨k1, v1⟩ := hd
    by_cases h1 : k1 = k
    · subst h1
      by_cases h2 : k1 = k2 <;> simp [insertSeen, lookupKey, seenOf, h2]
    · by_cases h2 : k1 = k2
      · subst h2
        have hne : ¬ k = k1 := fun h => h1 h.symm
        simp [insertSeen, lookupKey, h1, hne]
      · simp [insertSeen, lookupKey, h1, h2, ih, seenOf]

theorem seenOf_insertSeen (m : SeenMap) (k idv k2 : String) :
    seenOf (insertSeen m k idv) k2 =
      if k = k2 then idv :: seenOf m k else seenOf m k2 := by
  by_cases h : k = k2 <;> simp [seenOf, lookupKey_insertSeen, h]

theorem seenOf_mark_subset (m : SeenMap) (e : FeedEntry) (f : String) :
    seenOf m f ⊆ seenOf (is_new_and_mark m e).2 f := by
  unfold is_new_and_mark
  by_cases h : identity e ∈ seenOf m e.feed_id
  · simp [h]
  · by_cases h2 : e.feed_id = f
    · subst h2
      simp only [h, if_false, seenOf_insertSeen, if_pos rfl]
      exact fun x hx => List.mem_cons_of_mem _ hx
    · simp [h, seenOf_insertSeen, h2]

theorem mark_mem_seen (m : SeenMap) (e : FeedEntry) :
    identity e ∈ seenOf (is_new_and_mark m e).2 e.feed_id := by
  unfold is_new_and_mark
  by_cases h : identity e ∈ seenOf m e.feed_id <;> simp [h, seenOf_insertSeen]

theorem filterNew_subset (es : List FeedEntry) (m : SeenMap) (f : String) :
    seenOf m f ⊆ seenOf (filterNew m es).2 f := by
  induction es generalizing m with
  | nil => simp [filterNew]
  | cons e rest ih =>
    intro x hx
    exact ih (is_new_and_mark m e).2 (seenOf_mark_subset m e f hx)

theorem filterNew_marks (es : List FeedEntry) (m : SeenMap) :
    ∀ e ∈ es, identity e ∈ seenOf (filterNew m es).2 e.feed_id := by
  induction es generalizing m with
  | nil => simp
  | cons e rest ih =>
    intro x hx
    rcases List.mem_cons.mp hx with h | h
    · subst h
      exact filterNew_subset rest (is_new_and_mark m x).2 x.feed_id (mark_mem_seen m x)
    · exact ih (is_new_and_mark m e).2 x h

theorem filterNew_allSeen (es : List FeedEntry) (m : SeenMap)
    (h : ∀ e ∈ es, identity e ∈ seenOf m e.feed_id) :
    filterNew m es = ([], m) := by
  induction es with
  | nil => rfl
  | cons e rest ih =>
    have he : identity e ∈ seenOf m e.feed_id := h e (List.mem_cons_self e rest)
    have hmark : is_new_and_mark m e = (false, m) := by
      simp [is_new_and_mark, he]
    simp [filterNew, hmark, ih fun x hx => h x (List.mem_cons_of_mem e hx)]

theorem poll_once_subset (fetch : FeedDescriptor → Except PollError (List FeedEntry))
    (feeds : List FeedDescriptor) (m : SeenMap) (f : String) :
    seenOf m f ⊆ seenOf (poll_once fetch feeds m).2 f := by
  induction feeds generalizing m with
  | nil => simp [poll_once]
  | cons feed rest ih =>
    cases hf : fetch feed with
    | ok entries =>
      by_cases he : entries.isEmpty
      · simpa [poll_once, hf, he] using ih m
      · intro x hx
        have h1 := filterNew_subset entries m f hx
        have h2 := ih (filterNew m entries).2 h1
        simpa [poll_once, hf, he] using h2
    | error err => simpa [poll_once, hf] using ih m

theorem poll_once_marks (fetch : FeedDescriptor → Except PollError (List FeedEntry))
    (feeds : List FeedDescriptor) (m : SeenMap) :
    ∀ feed ∈ feeds, ∀ es, fetch feed = .ok es →
      ∀ e ∈ es, identity e ∈ seenOf (poll_once fetch feeds m).2 e.feed_id := by
  induction feeds generalizing m with
  | nil => simp
  | cons feed rest ih =>
    intro fd hfd es hes e he
    rcases List.mem_cons.mp hfd with h | h
    · subst h
      cases hf : fetch fd with
      | ok entries =>
        have hentries : entries = es := by rw [hf] at hes; exact Except.ok.inj hes
        subst hentries
        by_cases hemp : entries.isEmpty
        · rw [List.isEmpty_iff] at hemp
          subst hemp
          exact absurd he (List.not_mem_nil e)
        · have h1 := filterNew_marks entries m e he
          have h2 := poll_once_subset fetch rest (filterNew m entries).2 e.feed_id h1
          simpa [poll_once, hf, hemp] using h2
      | error err => rw [hf] at hes; exact absurd hes (by simp)
    · cases hf : fetch feed with
      | ok entries =>
        by_cases hemp : entries.isEmpty
        · simpa [poll_once, hf, hemp] using ih m fd h es hes e he
        · simpa [poll_once, hf, hemp] using
            ih (filterNew m entries).2 fd h es hes e he
      | error err => simpa [poll_once, hf] using ih m fd h es hes e he

theorem poll_once_allSeen (fetch : FeedDescriptor → Except PollError (List FeedEntry))
    (feeds : List FeedDescriptor) (m : SeenMap)
    (h : ∀ feed ∈ feeds, ∀ es, fetch feed = .ok es →
      ∀ e ∈ es, identity e ∈ seenOf m e.feed_id) :
    poll_once fetch feeds m = ([], m) := by
  induction feeds with
  | nil => rfl
  | cons feed rest ih =>
    have hrest : poll_once fetch rest m = ([], m) :=
      ih fun fd hfd => h fd (List.mem_cons_of_mem feed hfd)
    cases hf : fetch feed with
    | ok entries =>
      by_cases hemp : entries.isEmpty
      · simp [poll_once, hf, hemp, hrest]
      · have hall : ∀ e ∈ entries, identity e ∈ seenOf m e.feed_id :=
          h feed (List.mem_cons_self feed rest) entries hf
        have hfil : filterNew m entries = ([], m) := filterNew_allSeen entries m hall
        simp [poll_once, hf, hemp, hfil, hrest]
    | error err => simp [poll_once, hf, hrest]

/-- A sample entry used by concrete witnesses. -/
def sampleEntry : FeedEntry :=
  { feed_id := "feed1", title := "Item 1", summary := none,
    url := "http://example.com/1", published_at := some 100,
    guid := some "1", author := none, category := none,
    content_html := none, image_url := none }

/-- A sample entry with no guid and a non-empty url. -/
def sampleEntryUrl : FeedEntry :=
  { sampleEntry with guid := none, url := "http://example.com/2" }

/-- A sample entry with no guid and an empty url. -/
def sampleEntryTitle : FeedEntry :=
  { sampleEntry with guid := none, url := "", published_at := none }

/-- C1: `SeenStore::is_new_and_mark` returns true and records the entry's
identity in the seen set of its feed when the identity was not previously
recorded, and otherwise returns false leaving the seen data unchanged; a
second call with the same entry returns false, and for unchanged fetch
results a second run of `poll_once` yields no events (zero new entries) and
leaves the seen data unchanged. -/
theorem is_new_and_mark_contract (m : SeenMap) (e : FeedEntry) :
    (identity e ∉ seenOf m e.feed_id →
      is_new_and_mark m e = (true, insertSeen m e.feed_id (identity e)) ∧
      identity e ∈ seenOf (is_new_and_mark m e).2 e.feed_id) ∧
    (identity e ∈ seenOf m e.feed_id → is_new_and_mark m e = (false, m)) ∧
    (is_new_and_mark (is_new_and_mark m e).2 e).1 = false ∧
    (∀ fetch feeds,
      poll_once fetch feeds (poll_once fetch feeds m).2 =
        ([], (poll_once fetch feeds m).2)) := by
  refine ⟨?_, ?_, ?_, ?_⟩
  · intro h
    exact ⟨by simp [is_new_and_mark, h], mark_mem_seen m e⟩
  · intro h
    simp [is_new_and_mark, h]
  · have h := mark_mem_seen m e
    simp only [is_new_and_mark] at h ⊢
    simp [h]
  · intro fetch feeds
    exact poll_once_allSeen fetch feeds (poll_once fetch feeds m).2
      (poll_once_marks fetch feeds m)

/-- A concrete feed descriptor used by witnesses. -/
def sampleFeed : FeedDescriptor := ⟨"feed1", "Test", "https://example.com/feed"⟩

/-- Witness for C1: on an empty store a first mark returns true and records
the identity, the second mark returns false, and a second `poll_once` over
the same fetch results produces no events. -/
theorem is_new_and_mark_contract_witness :
    is_new_and_mark [] sampleEntry = (true, [("feed1", ["guid:1"])]) ∧
    (is_new_and_mark (is_new_and_mark [] sampleEntry).2 sampleEntry).1 = false ∧
    poll_once (fun _ => .ok [sampleEntry]) [sampleFeed]
        (poll_once (fun _ => .ok [sampleEntry]) [sampleFeed] []).2 =
      ([], [("feed1", ["guid:1"])]) := by
  refine ⟨?_, ?_, ?_⟩
  · exact (((is_new_and_mark_contract [] sampleEntry).1 (by decide)).1).trans (by decide)
  · exact (is_new_and_mark_contract [] sampleEntry).2.2.1
  · exact ((is_new_and_mark_contract [] sampleEntry).2.2.2
      (fun _ => .ok [sampleEntry]) [sampleFeed]).trans (by decide)

/-- C3: `FeedEntry::identity` is a pure function of the entry's fields and
follows the strict precedence guid > url > title+timestamp, with timestamp 0
when `published_at` is absent. -/
theorem identity_precedence (e : FeedEntry) :
    (∀ g, e.guid = some g → identity e = "guid:" ++ g) ∧
    (e.guid = none → e.url ≠ "" → identity e = "url:" ++ e.url) ∧
    (e.guid = none → e.url = "" →
      identity e = "title:" ++ e.title ++ "@" ++ toString (e.published_at.getD 0)) := by
  refine ⟨?_, ?_, ?_⟩
  · intro g hg
    simp [identity, hg]
  · intro hg hu
    have hh : e.url.isEmpty = false := by
      cases hh : e.url.isEmpty
      · rfl
      · exact absurd ((String.isEmpty_iff e.url).mp hh) hu
    simp [identity, hg, hh]
  · intro hg hu
    have hh : e.url.isEmpty = true := (String.isEmpty_iff e.url).mpr hu
    cases hp : e.published_at <;> simp [identity, hg, hh, hp]

/-- Witness for C3 at concrete entries exercising all three precedence
branches. -/
theorem identity_precedence_witness :
    identity sampleEntry = "guid:1" ∧
    identity sampleEntryUrl = "url:http://example.com/2" ∧
    identity sampleEntryTitle = "title:Item 1@0" := by
  refine ⟨?_, ?_, ?_⟩
  · exact (identity_precedence sampleEntry).1 "1" rfl
  · exact (identity_precedence sampleEntryUrl).2.1 rfl (by decide)
  · exact (identity_precedence sampleEntryTitle).2.2 rfl rfl

/-- C10: `add_feed` on an id already present does not replace in place: every
descriptor with the new id is removed and the new descriptor is appended at
the end, so `list_feeds` returns it last. -/
theorem add_feed_appends_at_end (feeds : List FeedDescriptor) (feed : FeedDescriptor) :
    add_feed feeds feed = (feeds.filter fun g => g.id ≠ feed.id) ++ [feed] ∧
    (list_feeds (add_feed feeds feed)).getLast? = some feed ∧
    (∀ g ∈ add_feed feeds feed, g.id = feed.id → g = feed) := by
  refine ⟨rfl, ?_, ?_⟩
  · simp [list_feeds, add_feed]
  · intro g hg hid
    rcases List.mem_append.mp hg with h | h
    · have := List.mem_filter.mp h
      simp at this
      exact absurd hid this.2
    · simpa using h

/-- Witness for C10: replacing the first of two feeds moves it to the end. -/
theorem add_feed_appends_at_end_witness :
    add_feed [⟨"a", "A", "u1"⟩, ⟨"b", "B", "u2"⟩] ⟨"a", "A2", "u3"⟩ =
      [⟨"b", "B", "u2"⟩, ⟨"a", "A2", "u3"⟩] ∧
    (⟨"a", "A2", "u3"⟩ : FeedDescriptor) = ⟨"a", "A2", "u3"⟩ := by
  refine ⟨by decide, ?_⟩
  exact (add_feed_appends_at_end [⟨"a", "A", "u1"⟩, ⟨"b", "B", "u2"⟩] ⟨"a", "A2", "u3"⟩).2.2
    ⟨"a", "A2", "u3"⟩ (by decide) rfl

/-! ### `DataApi` state and `remove_feed` (`src/rss-core/src/data.rs`). -/

/-- The in-memory state of `DataApi` (data.rs lines 17–25): shared feed
list, read map (`ReadData.read`) and per-feed article cache, the two
`HashMap`s modelled as association lists. -/
structure DataState where
  feeds : List FeedDescriptor
  read : List (String × List String)
  articles : List (String × List FeedEntry)
deriving Repr, DecidableEq

/-- `HashMap::remove` on the association-list model (keys are unique in a
`HashMap`, so removing the first matching pair is faithful). -/
def removeKey {A : Type} : List (String × A) → String → List (String × A)
  | [], _ => []
  | (k, v) :: rest, key => if k = key then rest else (k, v) :: removeKey rest key

/-- `DataApi::remove_feed` (data.rs lines 147–155): removes the feed from the
shared list (feed.rs `remove_feed`) and drops its read marks
(`inner.read.remove(feed_id)`); the article cache field is untouched and the
separate seen store (threaded through for the frame statement) is never
accessed. -/
def dataApi_remove_feed (s : DataState) (seen : SeenMap) (feed_id : String) :
    DataState × SeenMap :=
  ({ feeds := remove_feed s.feeds feed_id,
     read := removeKey s.read feed_id,
     articles := s.articles }, seen)

theorem lookupKey_eq_none_of_not_mem {A : Type} (l : List (String × A)) (k : String)
    (h : k ∉ l.map Prod.fst) : lookupKey l k = none := by
  induction l with
  | nil => rfl
  | cons hd tl ih =>
    obtain ⟨k1, v1⟩ := hd
    simp at h
    have : k1 ≠ k := fun hh => h.1 hh.symm
    simp [lookupKey, this, ih (by simp [h.2])]

theorem lookupKey_removeKey_self {A : Type} (l : List (String × A)) (k : String)
    (h : (l.map Prod.fst).Nodup) : lookupKey (removeKey l k) k = none := by
  induction l with
  | nil => rfl
  | cons hd tl ih =>
    obtain ⟨k1, v1⟩ := hd
    simp at h
    by_cases h1 : k1 = k
    · subst h1
      simpa [removeKey] using lookupKey_eq_none_of_not_mem tl k1 (by simp [h.1])
    · simp [removeKey, lookupKey, h1, ih h.2]

theorem lookupKey_removeKey_ne {A : Type} (l : List (String × A)) (k k2 : String)
    (h : k2 ≠ k) : lookupKey (removeKey l k) k2 = lookupKey l k2 := by
  induction l with
  | nil => rfl
  | cons hd tl ih =>
    obtain ⟨k1, v1⟩ := hd
    by_cases h1 : k1 = k
    · subst h1
      have : ¬ k1 = k2 := fun hh => h (hh.symm)
      simp [removeKey, lookupKey, this]
    · by_cases h2 : k1 = k2 <;> simp [removeKey, lookupKey, h1, h2, h, ih]

/-- C9: `DataApi::remove_feed` removes the descriptor with the given id from
the feed list and that feed's entry from the read-state map, and changes
nothing else: article cache and seen store are unchanged and read entries of
other feeds are preserved. -/
theorem remove_feed_frame (s : DataState) (seen : SeenMap) (feed_id : String) :
    (dataApi_remove_feed s seen feed_id).1.feeds =
        s.feeds.filter (fun f => f.id ≠ feed_id) ∧
    (∀ f ∈ (dataApi_remove_feed s seen feed_id).1.feeds, f.id ≠ feed_id) ∧
    ((s.read.map Prod.fst).Nodup →
      lookupKey (dataApi_remove_feed s seen feed_id).1.read feed_id = none) ∧
    (∀ k, k ≠ feed_id →
      lookupKey (dataApi_remove_feed s seen feed_id).1.read k = lookupKey s.read k) ∧
    (dataApi_remove_feed s seen feed_id).1.articles = s.articles ∧
    (dataApi_remove_feed s seen feed_id).2 = seen := by
  refine ⟨rfl, ?_, ?_, ?_, rfl, rfl⟩
  · intro f hf
    have := List.mem_filter.mp hf
    simpa using this.2
  · intro h
    exact lookupKey_removeKey_self s.read feed_id h
  · intro k hk
    exact lookupKey_removeKey_ne s.read feed_id k hk

/-- A concrete `DataApi` state for the C9 witness. -/
def sampleState : DataState :=
  { feeds := [⟨"feed1", "Test", "u1"⟩, ⟨"feed2", "Other", "u2"⟩],
    read := [("feed1", ["guid:1"]), ("feed2", ["guid:2"])],
    articles := [("feed1", [sampleEntry])] }

/-- Witness for C9: removing `feed1` from a two-feed state drops its
descriptor and read marks, keeps `feed2`'s read marks, and leaves articles
and the seen store unchanged. -/
theorem remove_feed_frame_witness :
    (dataApi_remove_feed sampleState [("feed1", ["guid:1"])] "feed1").1.feeds =
        [⟨"feed2", "Other", "u2"⟩] ∧
    lookupKey (dataApi_remove_feed sampleState [("feed1", ["guid:1"])] "feed1").1.read
        "feed1" = none ∧
    lookupKey (dataApi_remove_feed sampleState [("feed1", ["guid:1"])] "feed1").1.read
        "feed2" = lookupKey sampleState.read "feed2" ∧
    (dataApi_remove_feed sampleState [("feed1", ["guid:1"])] "feed1").1.articles =
        sampleState.articles ∧
    (dataApi_remove_feed sampleState [("feed1", ["guid:1"])] "feed1").2 =
        [("feed1", ["guid:1"])] := by
  have h := remove_feed_frame sampleState [("feed1", ["guid:1"])] "feed1"
  refine ⟨?_, ?_, ?_, h.2.2.2.2.1, h.2.2.2.2.2⟩
  · exact h.1.trans (by decide)
  · exact h.2.2.1 (by decide)
  · exact h.2.2.2.1 "feed2" (by decide)

/-! ### Persistence traces (`data.rs` persist functions and
`storage.rs` `SeenStore::persist`) and load-time corruption fallback. -/

/-- A file-system effect, as performed by the persistence code. -/
inductive FsOp where
  | write (path : String) (contents : String)
  | rename (src : String) (dst : String)
deriving Repr, DecidableEq

/-- Helper for `with_extension`: given the reversed character list of a file
name, the characters following the last dot removed together with the dot,
or `none` when there is no dot. -/
def stemRev : List Char → Option (List Char)
  | [] => none
  | c :: rest => if c = '.' then some rest else stemRev rest

/-- Rust `Path::with_extension` for the plain file names used by the stores:
replace the portion after the last dot by `ext` (append a dot and `ext` when
the name has none). -/
def with_extension (path ext : String) : String :=
  match stemRev path.data.reverse with
  | some rest => String.mk rest.reverse ++ "." ++ ext
  | none => path ++ "." ++ ext

/-- The common body of `DataApi::persist_feeds` / `persist_read` /
`persist_articles` (data.rs lines 84–140): write the serialized bytes to the
sibling `*.json.tmp` file, then rename it over the destination. -/
def persist_data_ops (path : String) (bytes : String) : List FsOp :=
  [FsOp.write (with_extension path "json.tmp") bytes,
   FsOp.rename (with_extension path "json.tmp") path]

/-- `DataApi::persist_feeds` (data.rs lines 84–102). -/
def persist_feeds_ops (feeds_path : String) (bytes : String) : List FsOp :=
  persist_data_ops feeds_path bytes

/-- `DataApi::persist_read` (data.rs lines 104–121). -/
def persist_read_ops (read_path : String) (bytes : String) : List FsOp :=
  persist_data_ops read_path bytes

/-- `DataApi::persist_articles` (data.rs lines 123–140). -/
def persist_articles_ops (articles_path : String) (bytes : String) : List FsOp :=
  persist_data_ops articles_path bytes

/-- `SeenStore::persist` (storage.rs lines 87–99): when a path is
configured, write the serialized bytes directly to that path — no temporary
file, no rename. In-memory mode performs no file operation. -/
def seen_persist_ops (path : Option String) (bytes : String) : List FsOp :=
  match path with
  | some p => [FsOp.write p bytes]
  | none => []

/-- The atomic-replace pattern the spec describes: write the full serialized
bytes to the sibling temp file, then rename it over the destination. -/
def atomicReplaceTrace (ops : List FsOp) (primary bytes : String) : Prop :=
  ops = [FsOp.write (with_extension primary "json.tmp") bytes,
         FsOp.rename (with_extension primary "json.tmp") primary]

/-- Whether a trace writes contents directly into the given path. -/
def writesPrimary (ops : List FsOp) (primary : String) : Bool :=
  ops.any fun op =>
    match op with
    | FsOp.write p _ => p = primary
    | FsOp.rename _ _ => false

/-- C2 counterexample: `SeenStore::persist` writes the serialized bytes
directly into `seen_store.json`; its trace is a bare write of the primary
file and is not an atomic-replace trace. -/
theorem seen_persist_not_atomic :
    seen_persist_ops (some "seen_store.json") "{}" =
        [FsOp.write "seen_store.json" "{}"] ∧
    writesPrimary (seen_persist_ops (some "seen_store.json") "{}")
        "seen_store.json" = true ∧
    ¬ atomicReplaceTrace (seen_persist_ops (some "seen_store.json") "{}")
        "seen_store.json" "{}" := by
  refine ⟨rfl, by decide, ?_⟩
  intro h
  simp only [atomicReplaceTrace, seen_persist_ops] at h
  exact absurd h (by decide)

/-- C2 amended: the three `DataApi` stores — feeds.json, read_store.json and
articles_store.json — persist with the atomic-replace algorithm (serialize,
write the bytes to the sibling temp file, rename it over the destination,
never writing the primary file directly), while `SeenStore::persist` writes
`seen_store.json` directly (and in-memory mode writes nothing). -/
theorem dataApi_persist_atomic (bytes : String) :
    atomicReplaceTrace (persist_feeds_ops "feeds.json" bytes) "feeds.json" bytes ∧
    writesPrimary (persist_feeds_ops "feeds.json" bytes) "feeds.json" = false ∧
    atomicReplaceTrace (persist_read_ops "read_store.json" bytes)
      "read_store.json" bytes ∧
    writesPrimary (persist_read_ops "read_store.json" bytes) "read_store.json" = false ∧
    atomicReplaceTrace (persist_articles_ops "articles_store.json" bytes)
      "articles_store.json" bytes ∧
    writesPrimary (persist_articles_ops "articles_store.json" bytes)
      "articles_store.json" = false ∧
    seen_persist_ops (some "seen_store.json") bytes =
      [FsOp.write "seen_store.json" bytes] ∧
    seen_persist_ops none bytes = [] := by
  have h1 : with_extension "feeds.json" "json.tmp" = "feeds.json.tmp" := by decide
  have h2 : with_extension "read_store.json" "json.tmp" = "read_store.json.tmp" := by
    decide
  have h3 : with_extension "articles_store.json" "json.tmp" =
      "articles_store.json.tmp" := by decide
  refine ⟨rfl, ?_, rfl, ?_, rfl, ?_, rfl, rfl⟩
  · simp [writesPrimary, persist_feeds_ops, persist_data_ops, h1]
  · simp [writesPrimary, persist_read_ops, persist_data_ops, h2]
  · simp [writesPrimary, persist_articles_ops, persist_data_ops, h3]

/-- `read_json_with_tmp_fallback` (data.rs lines 41–58): `fs` maps a path to
file contents when readable, `parse` is the `serde_json` deserialization; on
a parse failure of the primary file the adjacent `*.json.tmp` file is read
and parsed, any remaining failure yielding the `Default` value; a read
failure of the primary yields the default directly. -/
def read_json_with_tmp_fallback {T : Type} (dflt : T) (parse : String → Option T)
    (fs : String → Option String) (path : String) : T :=
  match fs path with
  | some bytes =>
    match parse bytes with
    | some v => v
    | none =>
      match fs (with_extension path "json.tmp") with
      | some tmp_bytes => (parse tmp_bytes).getD dflt
      | none => dflt
  | none => dflt

/-- `SeenStore::load_from` (storage.rs lines 44–54): read the file and
deserialize, `unwrap_or_default()` on a parse failure and the default on a
read failure; no temp-file rescue. -/
def seen_load_from (parse : String → Option SeenMap) (fs : String → Option String)
    (path : String) : SeenMap :=
  match fs path with
  | some bytes => (parse bytes).getD []
  | none => []

/-- A minimal parse function for the C5 counterexample: only the contents
"good" parse, to a one-feed seen map. -/
def cexParse : String → Option SeenMap :=
  fun s => if s = "good" then some [("feed1", ["guid:1"])] else none

/-- A file system with a corrupted `seen_store.json` and a valid adjacent
temp file. -/
def cexFs : String → Option String :=
  fun p =>
    if p = "seen_store.json" then some "bad"
    else if p = "seen_store.json.tmp" then some "good"
    else none

/-- C5 counterexample: with a corrupted primary file and a valid adjacent
temp file, `SeenStore::load_from` returns the empty default without
consulting the temp file, although the `DataApi` loader recovers the temp
contents from the same file system — so not every persisted store attempts
the temp-file rescue. -/
theorem seen_load_no_tmp_fallback :
    seen_load_from cexParse cexFs "seen_store.json" = [] ∧
    read_json_with_tmp_fallback [] cexParse cexFs "seen_store.json" =
      [("feed1", ["guid:1"])] := by
  constructor <;> rfl

/-- C5 amended: for the stores loaded through `read_json_with_tmp_fallback`
(feeds.json, read_store.json, articles_store.json), a primary file that
exists but fails to parse triggers a read of the adjacent temp file, whose
contents are used when valid, with the empty default only when that also
fails; `SeenStore::load_from` instead falls back directly to the empty
default on a parse failure. No load path hard-fails. -/
theorem load_fallback_behavior {T : Type} (dflt : T) (parse : String → Option T)
    (fs : String → Option String) (path : String) :
    (∀ bytes tb v, fs path = some bytes → parse bytes = none →
      fs (with_extension path "json.tmp") = some tb → parse tb = some v →
      read_json_with_tmp_fallback dflt parse fs path = v) ∧
    (∀ bytes tb, fs path = some bytes → parse bytes = none →
      fs (with_extension path "json.tmp") = some tb → parse tb = none →
      read_json_with_tmp_fallback dflt parse fs path = dflt) ∧
    (∀ bytes, fs path = some bytes → parse bytes = none →
      fs (with_extension path "json.tmp") = none →
      read_json_with_tmp_fallback dflt parse fs path = dflt) ∧
    (∀ sparse bytes, fs path = some bytes → sparse bytes = none →
      seen_load_from sparse fs path = []) := by
  refine ⟨?_, ?_, ?_, ?_⟩
  · intro bytes tb v hb hp ht hpt
    simp [read_json_with_tmp_fallback, hb, hp, ht, hpt]
  · intro bytes tb hb hp ht hpt
    simp [read_json_with_tmp_fallback, hb, hp, ht, hpt]
  · intro bytes hb hp ht
    simp [read_json_with_tmp_fallback, hb, hp, ht]
  · intro sparse bytes hb hp
    simp [seen_load_from, hb, hp]

/-- Witness for C5 (amended): on a concrete file system with corrupted
primary and valid temp, the `DataApi` loader recovers the temp contents and
the seen store loads empty. -/
theorem load_fallback_behavior_witness :
    read_json_with_tmp_fallback ([] : SeenMap) cexParse cexFs "seen_store.json" =
      [("feed1", ["guid:1"])] ∧
    seen_load_from cexParse cexFs "seen_store.json" = [] := by
  constructor
  · exact (load_fallback_behavior [] cexParse cexFs "seen_store.json").1
      "bad" "good" [("feed1", ["guid:1"])] rfl rfl (by decide) rfl
  · exact (load_fallback_behavior [] cexParse cexFs "seen_store.json").2.2.2
      cexParse "bad" rfl rfl

/-! ### Scheme policy of `fetch_feed` (`src/rss-core/src/poller.rs`). -/

/-- The loopback-host allowance of `fetch_feed` (poller.rs lines 111–114):
`host_str` is `localhost`, `127.0.0.1` or `::1`. -/
def host_ok (host : Option String) : Bool :=
  match host with
  | some "localhost" => true
  | some "127.0.0.1" => true
  | some "::1" => true
  | _ => false

/-- The scheme gate of `fetch_feed` (poller.rs lines 107–118) in the
production build (`cfg(not(test))`), applied to the parsed URL's scheme and
`host_str`: the error returned before any network I/O, or `none` when the
request proceeds to `client.get(url)`. -/
def scheme_check (scheme : String) (host : Option String) : Option PollError :=
  if scheme ≠ "https" then
    if host_ok host then none else some PollError.UnsupportedScheme
  else none

/-- C6: `fetch_feed`'s scheme gate evaluated at the decisive inputs. `https`
is always accepted and `http` on a non-loopback host is rejected, but for
`ftp://localhost/feed` — a scheme that is neither https nor http — the gate
raises no error and the request proceeds to network I/O: the loopback
exception exempts every scheme, not only http, contradicting the code's own
comment and the claim that any other scheme yields the unsupported-scheme
error. -/
theorem scheme_check_behavior :
    scheme_check "https" (some "example.com") = none ∧
    scheme_check "http" (some "example.com") = some PollError.UnsupportedScheme ∧
    scheme_check "http" (some "localhost") = none ∧
    scheme_check "http" (some "127.0.0.1") = none ∧
    scheme_check "http" (some "::1") = none ∧
    scheme_check "ftp" (some "localhost") = none ∧
    scheme_check "ftp" (some "example.com") = some PollError.UnsupportedScheme := by
  refine ⟨rfl, rfl, rfl, rfl, rfl, rfl, rfl⟩

/-! ### Retry wrapper `fetch_feed_with_retries` (poller.rs lines 181–201). -/

/-- The retry loop of `fetch_feed_with_retries` (poller.rs lines 186–200).
`results i` is the outcome of the `(i+1)`-th call to `fetch_feed` (`i` is
the value of the Rust `attempt` counter when the call is made) and
`remaining` is `max_retries - i`, so `remaining = 0` exactly when a failure
makes `attempt > max_retries`. Returns the final outcome, the number of
attempts made, and the list of backoff sleeps (in milliseconds,
`retry_backoff_ms * 2^(attempt-1)`) performed between consecutive
attempts. -/
def retry_go (base : Nat) (results : Nat → Except PollError (List FeedEntry)) :
    Nat → Nat → Except PollError (List FeedEntry) × Nat × List Nat
  | i, remaining =>
    match results i with
    | .ok v => (.ok v, i + 1, [])
    | .error e =>
      match remaining with
      | 0 => (.error e, i + 1, [])
      | r + 1 =>
        let out := retry_go base results (i + 1) r
        (out.1, out.2.1, base * 2 ^ i :: out.2.2)

/-- `fetch_feed_with_retries` (poller.rs lines 181–201), with the network
abstracted by `results`. -/
def fetch_feed_with_retries (base max_retries : Nat)
    (results : Nat → Except PollError (List FeedEntry)) :
    Except PollError (List FeedEntry) × Nat × List Nat :=
  retry_go base results 0 max_retries

theorem retry_go_all_fail (base : Nat)
    (results : Nat → Except PollError (List FeedEntry)) (e : PollError) :
    ∀ r i, (∀ k, i ≤ k → k < i + r → ∃ err, results k = .error err) →
      results (i + r) = .error e →
      retry_go base results i r =
        (.error e, i + r + 1, (List.range' i r).map fun k => base * 2 ^ k) := by
  intro r
  induction r with
  | zero =>
    intro i _ hlast
    simp only [Nat.add_zero] at hlast
    simp [retry_go, hlast, List.range']
  | succ r ih =>
    intro i hfail hlast
    obtain ⟨erri, hi⟩ := hfail i (Nat.le_refl i) (by omega)
    have hlast2 : results (i + 1 + r) = .error e := by
      have : i + 1 + r = i + (r + 1) := by omega
      rw [this]; exact hlast
    have hrec := ih (i + 1) (fun k hk1 hk2 => hfail k (by omega) (by omega)) hlast2
    simp only [retry_go, hi, hrec, List.range', List.map_cons, Prod.mk.injEq]
    refine ⟨trivial, by omega, trivial⟩

theorem retry_go_first_ok (base : Nat)
    (results : Nat → Except PollError (List FeedEntry)) (v : List FeedEntry) :
    ∀ r i j, i ≤ j → j ≤ i + r →
      (∀ k, i ≤ k → k < j → ∃ err, results k = .error err) →
      results j = .ok v →
      retry_go base results i r =
        (.ok v, j + 1, (List.range' i (j - i)).map fun k => base * 2 ^ k) := by
  intro r
  induction r with
  | zero =>
    intro i j hij hji _ hok
    have : j = i := by omega
    subst this
    simp [retry_go, hok, List.range']
  | succ r ih =>
    intro i j hij hji hfail hok
    by_cases hji2 : j = i
    · subst hji2
      simp [retry_go, hok, List.range']
    · obtain ⟨erri, hi⟩ := hfail i (Nat.le_refl i) (by omega)
      have hrec := ih (i + 1) j (by omega) (by omega)
        (fun k hk1 hk2 => hfail k (by omega) hk2) hok
      have hrange : List.range' i (j - i) =
          i :: List.range' (i + 1) (j - (i + 1)) := by
        have h1 : j - i = (j - (i + 1)) + 1 := by omega
        rw [h1, List.range']
      simp only [retry_go, hi, hrec, hrange, List.map_cons, Prod.mk.injEq]

/-- C7: when every attempt fails, `fetch_feed_with_retries` makes exactly
`max_retries + 1` attempts, sleeps `retry_backoff_ms * 2^(attempt-1)`
milliseconds between consecutive attempts, and returns the last attempt's
error; when the `(j+1)`-th attempt (for any `j + 1 ≤ max_retries + 1`)
succeeds after `j` failures, its result is returned immediately after
exactly `j + 1` attempts. -/
theorem fetch_feed_with_retries_spec (base mr : Nat)
    (results : Nat → Except PollError (List FeedEntry)) :
    (∀ e, (∀ k, k < mr → ∃ err, results k = .error err) →
      results mr = .error e →
      fetch_feed_with_retries base mr results =
        (.error e, mr + 1, (List.range mr).map fun k => base * 2 ^ k)) ∧
    (∀ j v, j ≤ mr →
      (∀ k, k < j → ∃ err, results k = .error err) →
      results j = .ok v →
      fetch_feed_with_retries base mr results =
        (.ok v, j + 1, (List.range j).map fun k => base * 2 ^ k)) := by
  constructor
  · intro e hfail hlast
    have h := retry_go_all_fail base results e mr 0
      (fun k _ hk => hfail k (by omega)) (by simpa using hlast)
    simpa [fetch_feed_with_retries, List.range_eq_range'] using h
  · intro j v hj hfail hok
    have h := retry_go_first_ok base results v mr 0 j (Nat.zero_le j)
      (by omega) (fun k _ hk => hfail k hk) hok
    simpa [fetch_feed_with_retries, List.range_eq_range'] using h

/-- Witness for C7: with `retry_backoff_ms = 500` and `max_retries = 3`,
all-failing attempts yield the last error after 4 attempts with sleeps
500, 1000, 2000; a run failing once then succeeding returns the success
after 2 attempts with a single 500 ms sleep. -/
theorem fetch_feed_with_retries_spec_witness :
    fetch_feed_with_retries 500 3 (fun _ => .error PollError.Network) =
      (.error PollError.Network, 4, [500, 1000, 2000]) ∧
    fetch_feed_with_retries 500 3
        (fun i => if i = 0 then .error PollError.Network else .ok []) =
      (.ok [], 2, [500]) := by
  constructor
  · have h := (fetch_feed_with_retries_spec 500 3 (fun _ => .error PollError.Network)).1
      PollError.Network (fun k _ => ⟨PollError.Network, rfl⟩) rfl
    exact h.trans rfl
  · have h := (fetch_feed_with_retries_spec 500 3
        (fun i => if i = 0 then .error PollError.Network else .ok [])).2
      1 [] (by omega)
      (fun k hk => ⟨PollError.Network, by
        have hk0 : k = 0 := by omega
        subst hk0; rfl⟩)
      rfl
    exact h.trans rfl

/-! ### Body-size cap of `fetch_feed` (poller.rs lines 120–135). -/

/-- `MAX_FEED_BYTES` (poller.rs line 120): 10 MiB. -/
def MAX_FEED_BYTES : Nat := 10 * 1024 * 1024

/-- The streaming loop of `fetch_feed` (poller.rs lines 127–135): `buf` is
the accumulated body and `chunks` the remaining stream chunks (lists of
bytes). A chunk that would push the total over the cap aborts with
`TooLarge` carrying the byte count observed so far, the offending chunk
included. -/
def read_chunks : List Nat → List (List Nat) → Except PollError (List Nat)
  | buf, [] => .ok buf
  | buf, c :: rest =>
    if buf.length + c.length > MAX_FEED_BYTES then
      .error (PollError.TooLarge (buf.length + c.length))
    else read_chunks (buf ++ c) rest

/-- The body-acquisition phase of `fetch_feed` (poller.rs lines 120–135):
the declared `Content-Length` (when present) is checked against the cap
before any chunk is read, then the chunks are streamed under the cap. -/
def read_body (content_length : Option Nat) (chunks : List (List Nat)) :
    Except PollError (List Nat) :=
  match content_length with
  | some len =>
    if len > MAX_FEED_BYTES then .error (PollError.TooLarge len)
    else read_chunks [] chunks
  | none => read_chunks [] chunks

/-- Total byte count of a chunk list. -/
def sumLen (chunks : List (List Nat)) : Nat := (chunks.map List.length).sum

theorem read_chunks_overflow (c : List Nat) (post : List (List Nat)) :
    ∀ pre buf, buf.length + sumLen pre ≤ MAX_FEED_BYTES →
      buf.length + sumLen pre + c.length > MAX_FEED_BYTES →
      read_chunks buf (pre ++ c :: post) =
        .error (PollError.TooLarge (buf.length + sumLen pre + c.length)) := by
  intro pre
  induction pre with
  | nil =>
    intro buf hle hgt
    have h0 : sumLen ([] : List (List Nat)) = 0 := rfl
    rw [h0, Nat.add_zero] at hgt ⊢
    simp only [List.nil_append]
    simp [read_chunks, hgt]
  | cons p pre ih =>
    intro buf hle hgt
    have hsum : sumLen (p :: pre) = p.length + sumLen pre := by
      simp [sumLen]
    have hple : ¬ buf.length + p.length > MAX_FEED_BYTES := by omega
    have hlen : (buf ++ p).length = buf.length + p.length := List.length_append buf p
    have hrec := ih (buf ++ p) (by omega) (by omega)
    rw [List.cons_append]
    have hstep : read_chunks buf (p :: (pre ++ c :: post)) =
        read_chunks (buf ++ p) (pre ++ c :: post) := by
      simp [read_chunks, hple]
    rw [hstep, hrec]
    have harith : (buf ++ p).length + sumLen pre + c.length =
        buf.length + sumLen (p :: pre) + c.length := by
      omega
    rw [harith]

theorem read_chunks_ok : ∀ (chunks : List (List Nat)) (buf : List Nat),
    buf.length + sumLen chunks ≤ MAX_FEED_BYTES →
    read_chunks buf chunks = .ok (buf ++ chunks.flatten) := by
  intro chunks
  induction chunks with
  | nil => intro buf _; simp [read_chunks]
  | cons c rest ih =>
    intro buf hle
    have hsum : sumLen (c :: rest) = c.length + sumLen rest := by simp [sumLen]
    have hcle : ¬ buf.length + c.length > MAX_FEED_BYTES := by omega
    have hrec := ih (buf ++ c) (by simp; omega)
    simp only [read_chunks, if_neg hcle, hrec, List.flatten_cons, List.append_assoc]

/-- C8: `fetch_feed` enforces the 10 MiB cap. A declared `Content-Length`
over the cap yields `TooLarge` with the declared length, for every possible
chunk stream (no chunk is read); while streaming, the first chunk that
would push the accumulated bytes over the cap aborts with `TooLarge`
carrying the bytes observed so far including that chunk (with or without a
small declared length); a stream within the cap is read in full. -/
theorem read_body_cap (len : Nat) (chunks pre post : List (List Nat)) (c : List Nat) :
    (len > MAX_FEED_BYTES →
      read_body (some len) chunks = .error (PollError.TooLarge len)) ∧
    (sumLen pre ≤ MAX_FEED_BYTES → sumLen pre + c.length > MAX_FEED_BYTES →
      read_body none (pre ++ c :: post) =
        .error (PollError.TooLarge (sumLen pre + c.length)) ∧
      (len ≤ MAX_FEED_BYTES →
        read_body (some len) (pre ++ c :: post) =
          .error (PollError.TooLarge (sumLen pre + c.length)))) ∧
    (sumLen chunks ≤ MAX_FEED_BYTES →
      read_body none chunks = .ok chunks.flatten) := by
  refine ⟨?_, ?_, ?_⟩
  · intro h
    simp [read_body, h]
  · intro hle hgt
    have h := read_chunks_overflow c post pre [] (by simpa using hle)
      (by simpa using hgt)
    simp only [List.length_nil, Nat.zero_add] at h
    constructor
    · simpa [read_body] using h
    · intro hlen
      have hnot : ¬ len > MAX_FEED_BYTES := by omega
      simpa [read_body, hnot] using h
  · intro h
    have := read_chunks_ok chunks [] (by simpa using h)
    simpa [read_body] using this

/-- Witness for C8: a declared length one over the cap fails with that
length before any chunk; a single chunk of `MAX_FEED_BYTES + 1` bytes aborts
with that byte count; two small chunks are read in full. -/
theorem read_body_cap_witness :
    read_body (some (MAX_FEED_BYTES + 1)) [[0]] =
      .error (PollError.TooLarge (MAX_FEED_BYTES + 1)) ∧
    read_body none [List.replicate (MAX_FEED_BYTES + 1) 0] =
      .error (PollError.TooLarge (MAX_FEED_BYTES + 1)) ∧
    read_body none [[1, 2], [3]] = .ok [1, 2, 3] := by
  have hlen : (List.replicate (MAX_FEED_BYTES + 1) (0 : Nat)).length =
      MAX_FEED_BYTES + 1 := List.length_replicate _ _
  have h0 : sumLen [] = 0 := rfl
  refine ⟨?_, ?_, ?_⟩
  · exact (read_body_cap (MAX_FEED_BYTES + 1) [[0]] [] []
      (List.replicate (MAX_FEED_BYTES + 1) 0)).1 (by omega)
  · have h := ((read_body_cap 0 [] [] []
      (List.replicate (MAX_FEED_BYTES + 1) 0)).2.1
      (by omega) (by omega)).1
    rw [List.nil_append, h0, Nat.zero_add, hlen] at h
    exact h
  · have h := (read_body_cap 0 [[1, 2], [3]] [] [] []).2.2 (by decide)
    simpa using h

/-! ### Article cache upsert (`DataApi::upsert_articles`, data.rs 183–203). -/

/-- `MAX_PER_FEED` (data.rs line 185). -/
def MAX_PER_FEED : Nat := 300

/-- The `≤` of the derived `Ord` on Rust `Option<DateTime<Utc>>`: `None`
sorts below every `Some`, and `Some` values compare chronologically (by
timestamp). -/
def optLe (a b : Option Int) : Bool :=
  match a, b with
  | none, _ => true
  | some _, none => false
  | some x, some y => x ≤ y

/-- The comparator of `slot.sort_by(|a, b| b.published_at.cmp(&a.published_at))`
(data.rs line 197): `a` may precede `b` when `b.published_at ≤
a.published_at`, i.e. descending by publication time, missing timestamps
last. -/
def descLe (a b : FeedEntry) : Bool := optLe b.published_at a.published_at

/-- The merge loop of `upsert_articles` (data.rs lines 189–195): `existing`
holds the identities seen so far (initially those of the stored slot) and
each incoming entry is appended only when its identity is newly inserted. -/
def mergeIncoming : List String → List FeedEntry → List FeedEntry → List FeedEntry
  | _, slot, [] => slot
  | existing, slot, e :: rest =>
    if identity e ∈ existing then mergeIncoming existing slot rest
    else mergeIncoming (identity e :: existing) (slot ++ [e]) rest

/-- `DataApi::upsert_articles` (data.rs lines 184–203) on one feed's cached
slot: identity-deduplicating merge of the incoming batch, stable sort by
`published_at` descending (`List.mergeSort` models Rust's stable `sort_by`),
truncation to `MAX_PER_FEED` when over the cap. -/
def upsert_articles (slot : List FeedEntry) (entries : List FeedEntry) : List FeedEntry :=
  let merged := mergeIncoming (slot.map identity) slot entries
  let sorted := merged.mergeSort descLe
  if sorted.length > MAX_PER_FEED then sorted.take MAX_PER_FEED else sorted

/-- The article-cache invariant of the spec: pairwise-distinct identities,
sorted by published time descending (missing timestamps last), at most
`MAX_PER_FEED` entries. -/
def slotInvariant (l : List FeedEntry) : Prop :=
  (l.map identity).Nodup ∧
  l.Pairwise (fun a b => descLe a b = true) ∧
  l.length ≤ MAX_PER_FEED

theorem optLe_trans (a b c : Option Int) (h1 : optLe a b = true)
    (h2 : optLe b c = true) : optLe a c = true := by
  cases a <;> cases b <;> cases c <;> simp [optLe] at * <;> omega

theorem optLe_total (a b : Option Int) : optLe a b || optLe b a := by
  cases a <;> cases b <;> simp [optLe] <;> omega

theorem descLe_trans (a b c : FeedEntry) (h1 : descLe a b = true)
    (h2 : descLe b c = true) : descLe a c = true :=
  optLe_trans c.published_at b.published_at a.published_at h2 h1

theorem descLe_total (a b : FeedEntry) : descLe a b || descLe b a := by
  simpa [descLe] using (optLe_total b.published_at a.published_at).symm

theorem mergeIncoming_spec :
    ∀ (inc : List FeedEntry) (existing : List String) (slot : List FeedEntry),
      (slot.map identity).Nodup →
      (∀ i ∈ slot.map identity, i ∈ existing) →
      ((mergeIncoming existing slot inc).map identity).Nodup ∧
      (∀ e ∈ mergeIncoming existing slot inc,
        e ∈ slot ∨ (e ∈ inc ∧ identity e ∉ existing)) := by
  intro inc
  induction inc with
  | nil =>
    intro existing slot hnd _
    exact ⟨hnd, fun e he => Or.inl he⟩
  | cons e rest ih =>
    intro existing slot hnd hcov
    by_cases hmem : identity e ∈ existing
    · have hunf : mergeIncoming existing slot (e :: rest) =
          mergeIncoming existing slot rest := by
        simp [mergeIncoming, hmem]
      have h := ih existing slot hnd hcov
      refine ⟨by rw [hunf]; exact h.1, ?_⟩
      intro x hx
      rw [hunf] at hx
      rcases h.2 x hx with h1 | h2
      · exact Or.inl h1
      · exact Or.inr ⟨List.mem_cons_of_mem e h2.1, h2.2⟩
    · have hnd2 : ((slot ++ [e]).map identity).Nodup := by
        simp only [List.map_append, List.map_cons, List.map_nil]
        rw [(List.perm_append_singleton _ _).nodup_iff]
        exact List.nodup_cons.mpr ⟨fun hc => hmem (hcov _ hc), hnd⟩
      have hcov2 : ∀ i ∈ (slot ++ [e]).map identity, i ∈ identity e :: existing := by
        intro i hi
        rw [List.map_append] at hi
        rcases List.mem_append.mp hi with h1 | h1
        · exact List.mem_cons_of_mem _ (hcov i h1)
        · simp at h1
          simp [h1]
      have hunf : mergeIncoming existing slot (e :: rest) =
          mergeIncoming (identity e :: existing) (slot ++ [e]) rest := by
        simp [mergeIncoming, hmem]
      have h := ih (identity e :: existing) (slot ++ [e]) hnd2 hcov2
      refine ⟨by rw [hunf]; exact h.1, ?_⟩
      intro x hx
      rw [hunf] at hx
      rcases h.2 x hx with h1 | h2
      · rcases List.mem_append.mp h1 with h3 | h3
        · exact Or.inl h3
        · simp at h3
          subst h3
          exact Or.inr ⟨List.mem_cons_self x rest, hmem⟩
      · exact Or.inr ⟨List.mem_cons_of_mem e h2.1,
          fun hc => h2.2 (List.mem_cons_of_mem _ hc)⟩

theorem upsert_articles_props (slot entries : List FeedEntry)
    (h : (slot.map identity).Nodup) :
    slotInvariant (upsert_articles slot entries) ∧
    (∀ e ∈ upsert_articles slot entries,
      e ∈ slot ∨ (e ∈ entries ∧ identity e ∉ slot.map identity)) := by
  have hm := mergeIncoming_spec entries (slot.map identity) slot h (fun i hi => hi)
  have hperm : List.Perm
      ((mergeIncoming (slot.map identity) slot entries).mergeSort descLe)
      (mergeIncoming (slot.map identity) slot entries) :=
    List.mergeSort_perm (mergeIncoming (slot.map identity) slot entries) descLe
  have hnd : (((mergeIncoming (slot.map identity) slot entries).mergeSort
      descLe).map identity).Nodup :=
    (hperm.map identity).nodup_iff.mpr hm.1
  have hsorted : ((mergeIncoming (slot.map identity) slot entries).mergeSort
      descLe).Pairwise (fun a b => descLe a b = true) :=
    @List.sorted_mergeSort _ descLe descLe_trans descLe_total
      (mergeIncoming (slot.map identity) slot entries)
  have hmem : ∀ e ∈ (mergeIncoming (slot.map identity) slot entries).mergeSort descLe,
      e ∈ slot ∨ (e ∈ entries ∧ identity e ∉ slot.map identity) := by
    intro e he
    exact hm.2 e (hperm.mem_iff.mp he)
  simp only [upsert_articles]
  by_cases hlen : ((mergeIncoming (slot.map identity) slot entries).mergeSort
      descLe).length > MAX_PER_FEED
  · rw [if_pos hlen]
    have hsub : List.Sublist
        (((mergeIncoming (slot.map identity) slot entries).mergeSort
          descLe).take MAX_PER_FEED)
        ((mergeIncoming (slot.map identity) slot entries).mergeSort descLe) :=
      List.take_sublist _ _
    refine ⟨⟨?_, hsorted.sublist hsub, ?_⟩, ?_⟩
    · rw [List.map_take]
      exact hnd.sublist (List.take_sublist _ _)
    · rw [List.length_take]
      exact Nat.min_le_left _ _
    · intro e he
      exact hmem e (hsub.subset he)
  · rw [if_neg hlen]
    exact ⟨⟨hnd, hsorted, by omega⟩, hmem⟩

/-- C4: for every feed slot with pairwise-distinct identities and every
incoming batch, `upsert_articles` yields a slot with no two entries sharing
an identity (incoming entries whose identity is already present are
dropped, the stored entry kept), sorted by `published_at` descending with
missing timestamps last, of length at most 300; starting from the empty
slot the invariant holds after any sequence of upserts. -/
theorem upsert_articles_invariant (slot entries : List FeedEntry)
    (h : (slot.map identity).Nodup) :
    slotInvariant (upsert_articles slot entries) ∧
    (∀ e ∈ upsert_articles slot entries,
      e ∈ slot ∨ (e ∈ entries ∧ identity e ∉ slot.map identity)) ∧
    (∀ batches : List (List FeedEntry),
      slotInvariant (batches.foldl upsert_articles [])) := by
  refine ⟨(upsert_articles_props slot entries h).1,
    (upsert_articles_props slot entries h).2, ?_⟩
  intro batches
  have hgen : ∀ (bs : List (List FeedEntry)) (init : List FeedEntry),
      slotInvariant init → slotInvariant (bs.foldl upsert_articles init) := by
    intro bs
    induction bs with
    | nil => intro init hi; exact hi
    | cons b rest ih =>
      intro init hi
      exact ih (upsert_articles init b) (upsert_articles_props init b hi.1).1
  exact hgen batches [] ⟨by simp, List.Pairwise.nil, by simp [MAX_PER_FEED]⟩

/-- Witness for C4: the empty slot has distinct identities, so the theorem
applies to upserting a batch containing a duplicated entry into it. -/
theorem upsert_articles_invariant_witness :
    (([] : List FeedEntry).map identity).Nodup ∧
    slotInvariant (upsert_articles [] [sampleEntry, sampleEntry]) := by
  exact ⟨by simp,
    (upsert_articles_invariant [] [sampleEntry, sampleEntry] (by simp)).1⟩

end ReadRSS
